import Mathlib

/-!
Verification of the vv-esp embedded client.

This development shallowly embeds the core algorithms of the repository:

* the SSE (Server-Sent-Events) frame decoder of
  `components/baidu_agent/baidu_agent_sse.c` (`baidu_agent_http_event_handler`,
  case `HTTP_EVENT_ON_DATA`);
* the sentence segmenter of `components/tts_service/streaming_tts.c`
  (`split_by_punctuation`, `flush_remaining_text`, `utf8_char_count`,
  `is_chinese_punctuation`, and the `splitter_task` drain loop);
* the retry loop of `main/baidu_agent_client.c` (`http_client_task`);
* the text-length handling of the two `baidu_tts_synthesize` variants
  (`tts_service.c` and `streaming_tts.c`) together with `url_encode`;
* `streaming_tts_push_text` of `streaming_tts.c`.

Bytes are modelled as natural numbers; C strings are lists of bytes in which
an interior 0 byte terminates the string (the places where the C code relies
on NUL termination are modelled explicitly).
-/

namespace VvEsp

/-! ## SSE frame decoder (`baidu_agent_sse.c`, lines 35-114)

The decoder state owned by `baidu_agent_client_t`: the active SSE event name
`current_sse_event` and the pending bytes of `sse_buffer`.  `SSE_BUFFER_SIZE`
is 4096, and the append step keeps one byte for the NUL terminator, so at most
`4095 - buf.length` new bytes are accepted per chunk. -/

/-- Bytes of the default event name `"message"`. -/
def msgB : List Nat := [109, 101, 115, 115, 97, 103, 101]

/-- Bytes of the sentinel payload `"[DONE]"`. -/
def doneB : List Nat := [91, 68, 79, 78, 69, 93]

/-- Bytes of the line prefix `"event:"`. -/
def eventColon : List Nat := [101, 118, 101, 110, 116, 58]

/-- Bytes of the line prefix `"data:"`. -/
def dataColon : List Nat := [100, 97, 116, 97, 58]

/-- `while (*p == ' ') p++;` — skip all leading space bytes. -/
def trimSp (l : List Nat) : List Nat := l.dropWhile (· == 32)

/-- `strstr(line_start, "\n")`: the next complete line of the buffer.
`strstr` scans the NUL-terminated string, so a 0 byte that appears before any
newline blocks line extraction.  Returns the line (newline removed) and the
bytes after the newline. -/
def firstLine : List Nat → Option (List Nat × List Nat)
  | [] => none
  | b :: rest =>
    if b = 10 then some ([], rest)
    else if b = 0 then none
    else
      match firstLine rest with
      | some (l, r) => some (b :: l, r)
      | none => none

/-- Classification of one complete line (lines 54-96 of `baidu_agent_sse.c`):
strip one trailing `\r`, then dispatch on empty / `event:` / `data:`.
Returns the new active event name and the payload handed to
`baidu_agent_process_json`, if any. -/
def processLine (ev : List Nat) (line : List Nat) : List Nat × Option (List Nat) :=
  let l := if line.getLast? = some 13 then line.dropLast else line
  if l = [] then
    (msgB, none)
  else if eventColon.isPrefixOf l then
    (trimSp (l.drop 6), none)
  else if dataColon.isPrefixOf l then
    let p := trimSp (l.drop 5)
    (ev, if ev = msgB then (if p = doneB then none else some p) else none)
  else
    (ev, none)

/-- The decoder state retained across `HTTP_EVENT_ON_DATA` callbacks. -/
structure SseState where
  event : List Nat
  buf : List Nat
deriving DecidableEq, Repr

theorem firstLine_sub {buf l r : List Nat} (h : firstLine buf = some (l, r)) :
    buf = l ++ 10 :: r := by
  induction buf generalizing l r with
  | nil => simp [firstLine] at h
  | cons b rest ih =>
    simp only [firstLine] at h
    split at h
    · simp_all
    · split at h
      · simp_all
      · cases hfl : firstLine rest with
        | none => rw [hfl] at h; simp at h
        | some p =>
          rw [hfl] at h
          cases p with
          | mk l' r' =>
            simp only [Option.some.injEq, Prod.mk.injEq] at h
            obtain ⟨h1, h2⟩ := h
            subst h2
            rw [← h1, ih hfl]
            simp

theorem firstLine_length {buf l r : List Nat} (h : firstLine buf = some (l, r)) :
    r.length < buf.length := by
  have := firstLine_sub h
  subst this
  simp
  omega

/-- The line-splitting loop (lines 50-99), with explicit structural fuel:
consume every complete line of the buffer, returning the updated state (event
name, unconsumed remainder) and the list of payloads delivered to
`baidu_agent_process_json`, in order.  Each consumed line removes at least one
byte, so `buf.length` is always enough fuel. -/
def processBufF : Nat → List Nat → List Nat → SseState × List (List Nat)
  | 0, ev, buf => (⟨ev, buf⟩, [])
  | fuel + 1, ev, buf =>
    match firstLine buf with
    | none => (⟨ev, buf⟩, [])
    | some (l, r) =>
      let p := processLine ev l
      let q := processBufF fuel p.1 r
      (q.1, p.2.toList ++ q.2)

/-- The line-splitting loop of `baidu_agent_http_event_handler`. -/
def processBuf (ev : List Nat) (buf : List Nat) : SseState × List (List Nat) :=
  processBufF buf.length ev buf

theorem processBufF_irrel : ∀ (f1 f2 : Nat) (ev buf : List Nat),
    buf.length ≤ f1 → buf.length ≤ f2 → processBufF f1 ev buf = processBufF f2 ev buf := by
  intro f1
  induction f1 with
  | zero =>
    intro f2 ev buf h1 _
    have hbe : buf = [] := List.length_eq_zero.mp (Nat.le_zero.mp h1)
    subst hbe
    cases f2 with
    | zero => rfl
    | succ f2 => rfl
  | succ f1 ih =>
    intro f2 ev buf h1 h2
    cases f2 with
    | zero =>
      have hbe : buf = [] := List.length_eq_zero.mp (Nat.le_zero.mp h2)
      subst hbe
      rfl
    | succ f2 =>
      simp only [processBufF]
      cases h : firstLine buf with
      | none => rfl
      | some q =>
        obtain ⟨l, r⟩ := q
        have hlen := firstLine_length h
        dsimp only
        rw [ih f2 (processLine ev l).1 r (by omega) (by omega)]

theorem processBuf_of_none {ev buf : List Nat} (h : firstLine buf = none) :
    processBuf ev buf = (⟨ev, buf⟩, []) := by
  unfold processBuf
  cases buf with
  | nil => rfl
  | cons x rest => simp [processBufF, h]

theorem processBuf_of_some {ev buf l r : List Nat} (h : firstLine buf = some (l, r)) :
    processBuf ev buf =
      ((processBuf (processLine ev l).1 r).1,
        (processLine ev l).2.toList ++ (processBuf (processLine ev l).1 r).2) := by
  have hlen := firstLine_length h
  unfold processBuf
  cases buf with
  | nil => simp [firstLine] at h
  | cons x rest =>
    show processBufF (rest.length + 1) ev (x :: rest) = _
    simp only [processBufF, h]
    simp only [List.length_cons] at hlen
    rw [processBufF_irrel rest.length r.length (processLine ev l).1 r (by omega) le_rfl]

/-- One `HTTP_EVENT_ON_DATA` callback (lines 35-114): append the chunk,
bounded by the space left in the 4096-byte buffer (one byte reserved for the
NUL terminator); if nothing could be copied the data is dropped without
processing; otherwise process all complete lines. -/
def sseFeed (s : SseState) (chunk : List Nat) : SseState × List (List Nat) :=
  if chunk.isEmpty then (s, [])
  else if (chunk.take (4095 - s.buf.length)).isEmpty then (s, [])
  else processBuf s.event (s.buf ++ chunk.take (4095 - s.buf.length))

/-- Feed a list of chunks one at a time, concatenating the delivered
payloads. -/
def sseFeedAll (s : SseState) : List (List Nat) → SseState × List (List Nat)
  | [] => (s, [])
  | c :: cs =>
    let p := sseFeed s c
    let q := sseFeedAll p.1 cs
    (q.1, p.2 ++ q.2)

/-- Decoder state right after `HTTP_EVENT_ON_CONNECTED`: event name
`"message"`, empty buffer. -/
def sseStart : SseState := ⟨msgB, []⟩

theorem firstLine_cons (x : Nat) (rest : List Nat) :
    firstLine (x :: rest) =
      if x = 10 then some ([], rest)
      else if x = 0 then none
      else
        match firstLine rest with
        | some (l, r) => some (x :: l, r)
        | none => none := rfl

theorem firstLine_append {b c l r : List Nat} (h : firstLine b = some (l, r)) :
    firstLine (b ++ c) = some (l, r ++ c) := by
  induction b generalizing l r with
  | nil => simp [firstLine] at h
  | cons x rest ih =>
    rw [firstLine_cons] at h
    rw [show x :: rest ++ c = x :: (rest ++ c) from rfl, firstLine_cons]
    by_cases hx10 : x = 10
    · rw [if_pos hx10] at h ⊢
      simp only [Option.some.injEq, Prod.mk.injEq] at h
      obtain ⟨h1, h2⟩ := h
      simp [h1, h2]
    · rw [if_neg hx10] at h ⊢
      by_cases hx0 : x = 0
      · rw [if_pos hx0] at h; exact absurd h (by simp)
      · rw [if_neg hx0] at h ⊢
        cases hfl : firstLine rest with
        | none => rw [hfl] at h; simp at h
        | some p =>
          obtain ⟨l', r'⟩ := p
          rw [hfl] at h
          simp only [Option.some.injEq, Prod.mk.injEq] at h
          obtain ⟨h1, h2⟩ := h
          rw [ih hfl]
          simp [← h1, h2]

theorem processBuf_len_aux : ∀ (n : Nat) (ev buf : List Nat), buf.length ≤ n →
    (processBuf ev buf).1.buf.length ≤ buf.length := by
  intro n
  induction n with
  | zero =>
    intro ev buf hb
    have hbe : buf = [] := List.length_eq_zero.mp (Nat.le_zero.mp hb)
    subst hbe
    have h0 : firstLine ([] : List Nat) = none := rfl
    rw [processBuf_of_none h0]
  | succ n ih =>
    intro ev buf hb
    cases h : firstLine buf with
    | none => rw [processBuf_of_none h]
    | some p =>
      obtain ⟨l, r⟩ := p
      rw [processBuf_of_some h]
      dsimp only
      have hlen := firstLine_length h
      have := ih (processLine ev l).1 r (by omega)
      omega

theorem processBuf_len (ev buf : List Nat) :
    (processBuf ev buf).1.buf.length ≤ buf.length :=
  processBuf_len_aux buf.length ev buf le_rfl

theorem processBuf_append_aux : ∀ (n : Nat) (ev b c : List Nat), b.length ≤ n →
    processBuf ev (b ++ c) =
      ((processBuf (processBuf ev b).1.event ((processBuf ev b).1.buf ++ c)).1,
        (processBuf ev b).2 ++
          (processBuf (processBuf ev b).1.event ((processBuf ev b).1.buf ++ c)).2) := by
  intro n
  induction n with
  | zero =>
    intro ev b c hb
    have hbe : b = [] := List.length_eq_zero.mp (Nat.le_zero.mp hb)
    subst hbe
    have h0 : firstLine ([] : List Nat) = none := rfl
    rw [processBuf_of_none h0]
    simp
  | succ n ih =>
    intro ev b c hb
    cases h : firstLine b with
    | none =>
      rw [processBuf_of_none h]
      simp
    | some p =>
      obtain ⟨l, r⟩ := p
      have hlen := firstLine_length h
      rw [processBuf_of_some h, processBuf_of_some (firstLine_append h)]
      rw [ih (processLine ev l).1 r c (by omega)]
      simp

/-- Incremental line processing composes: processing `b ++ c` is the same as
processing `b`, then processing the remainder with `c` appended. -/
theorem processBuf_append (ev : List Nat) (b c : List Nat) :
    processBuf ev (b ++ c) =
      ((processBuf (processBuf ev b).1.event ((processBuf ev b).1.buf ++ c)).1,
        (processBuf ev b).2 ++
          (processBuf (processBuf ev b).1.event ((processBuf ev b).1.buf ++ c)).2) :=
  processBuf_append_aux b.length ev b c le_rfl

theorem sseFeed_eq_of_fits (s : SseState) (c : List Nat) (hne : c ≠ [])
    (h : s.buf.length + c.length ≤ 4095) :
    sseFeed s c = processBuf s.event (s.buf ++ c) := by
  have htake : c.take (4095 - s.buf.length) = c := List.take_of_length_le (by omega)
  rw [sseFeed, htake, if_neg (by simpa using hne), if_neg (by simpa using hne)]

theorem sseFeed_buf_len (s : SseState) (c : List Nat) :
    (sseFeed s c).1.buf.length ≤ s.buf.length + c.length := by
  rw [sseFeed]
  by_cases h1 : c.isEmpty
  · rw [if_pos h1]; simp
  · rw [if_neg h1]
    by_cases h2 : (c.take (4095 - s.buf.length)).isEmpty
    · rw [if_pos h2]; simp
    · rw [if_neg h2]
      refine le_trans (processBuf_len _ _) ?_
      have : (c.take (4095 - s.buf.length)).length ≤ c.length := by simp
      simp only [List.length_append]
      omega

/-- Feeding two chunks in sequence is the same as feeding their concatenation,
as long as the buffer does not overflow. -/
theorem sseFeed_append (s : SseState) (c1 c2 : List Nat)
    (h : s.buf.length + c1.length + c2.length ≤ 4095) :
    sseFeed s (c1 ++ c2) =
      ((sseFeed (sseFeed s c1).1 c2).1,
        (sseFeed s c1).2 ++ (sseFeed (sseFeed s c1).1 c2).2) := by
  by_cases h1 : c1 = []
  · subst h1
    simp [sseFeed]
  · by_cases h2 : c2 = []
    · subst h2
      simp [sseFeed]
    · rw [sseFeed_eq_of_fits s (c1 ++ c2) (by simp [h1]) (by simp; omega)]
      rw [sseFeed_eq_of_fits s c1 h1 (by omega)]
      have hfeedlen : (processBuf s.event (s.buf ++ c1)).1.buf.length ≤
          s.buf.length + c1.length := by
        refine le_trans (processBuf_len _ _) ?_; simp
      rw [sseFeed_eq_of_fits _ c2 h2 (by omega)]
      rw [← List.append_assoc]
      exact processBuf_append s.event (s.buf ++ c1) c2

theorem sseFeedAll_eq_flatten (chunks : List (List Nat)) : ∀ (s : SseState),
    s.buf.length + chunks.flatten.length ≤ 4095 →
    sseFeedAll s chunks = sseFeed s chunks.flatten := by
  induction chunks with
  | nil =>
    intro s _
    simp [sseFeedAll, sseFeed]
  | cons c cs ih =>
    intro s hfit
    simp only [List.flatten_cons, List.length_append] at hfit ⊢
    rw [sseFeed_append s c cs.flatten (by omega)]
    have hlen := sseFeed_buf_len s c
    rw [sseFeedAll, ← ih (sseFeed s c).1 (by omega)]

/-- C1.  For every byte sequence and every partition of it into chunks,
feeding the chunks one at a time to the SSE frame decoder
(`baidu_agent_http_event_handler`, case `HTTP_EVENT_ON_DATA`) produces
exactly the same sequence of data payloads delivered to
`baidu_agent_process_json` — and the same final decoder state — as feeding
the whole sequence as one single chunk.  The hypothesis is the claim's own
proviso that the buffered data never exceeds the buffer capacity
(`SSE_BUFFER_SIZE - 1 = 4095` bytes; feeding everything as one chunk buffers
the whole sequence before line extraction). -/
theorem sse_chunk_boundary_independence (chunks : List (List Nat))
    (hfit : chunks.flatten.length ≤ 4095) :
    sseFeedAll sseStart chunks = sseFeed sseStart chunks.flatten :=
  sseFeedAll_eq_flatten chunks sseStart (by simpa [sseStart] using hfit)

/-- Witness for C1: a stream split mid-line into three chunks delivers the
same payloads as the unsplit stream. -/
theorem sse_chunk_boundary_independence_witness :
    ([[100, 97, 116], [97, 58, 104, 105, 10, 100], [97, 116, 97, 58, 121, 111, 10]].flatten.length
        ≤ 4095)
    ∧ sseFeedAll sseStart [[100, 97, 116], [97, 58, 104, 105, 10, 100], [97, 116, 97, 58, 121, 111, 10]]
        = sseFeed sseStart
            [[100, 97, 116], [97, 58, 104, 105, 10, 100], [97, 116, 97, 58, 121, 111, 10]].flatten :=
  ⟨by decide,
    sse_chunk_boundary_independence
      [[100, 97, 116], [97, 58, 104, 105, 10, 100], [97, 116, 97, 58, 121, 111, 10]] (by decide)⟩

theorem processLine_ne_done {ev line p : List Nat}
    (h : (processLine ev line).2 = some p) : p ≠ doneB := by
  unfold processLine at h
  dsimp only at h
  repeat' split at h
  all_goals simp_all

theorem processBuf_done_aux : ∀ (n : Nat) (ev buf : List Nat), buf.length ≤ n →
    doneB ∉ (processBuf ev buf).2 := by
  intro n
  induction n with
  | zero =>
    intro ev buf hb
    have hbe : buf = [] := List.length_eq_zero.mp (Nat.le_zero.mp hb)
    subst hbe
    have h0 : firstLine ([] : List Nat) = none := rfl
    rw [processBuf_of_none h0]
    simp
  | succ n ih =>
    intro ev buf hb
    cases h : firstLine buf with
    | none =>
      rw [processBuf_of_none h]
      simp
    | some q =>
      obtain ⟨l, r⟩ := q
      rw [processBuf_of_some h]
      have hlen := firstLine_length h
      dsimp only
      intro hmem
      rcases List.mem_append.mp hmem with hm | hm
      · cases ho : (processLine ev l).2 with
        | none => rw [ho] at hm; simp at hm
        | some p =>
          rw [ho] at hm
          simp only [Option.toList_some, List.mem_singleton] at hm
          exact processLine_ne_done ho hm.symm
      · exact ih (processLine ev l).1 r (by omega) hm

theorem sseFeed_done_not_delivered (s : SseState) (chunk : List Nat) :
    doneB ∉ (sseFeed s chunk).2 := by
  rw [sseFeed]
  by_cases h1 : chunk.isEmpty
  · rw [if_pos h1]; simp
  · rw [if_neg h1]
    by_cases h2 : (chunk.take (4095 - s.buf.length)).isEmpty
    · rw [if_pos h2]; simp
    · rw [if_neg h2]
      exact processBuf_done_aux _ _ _ le_rfl

/-- C4.  On any stream, from any decoder state, the sentinel payload
`"[DONE]"` is never among the payloads handed to `baidu_agent_process_json`:
a `data:` line whose (space-trimmed) payload is `[DONE]` under the active
event name `"message"` is consumed without any delivery (lines 88-89 of
`baidu_agent_sse.c`), and under any other active event name every payload is
suppressed. -/
theorem sse_done_sentinel_never_delivered (s : SseState) (chunks : List (List Nat)) :
    doneB ∉ (sseFeedAll s chunks).2 := by
  induction chunks generalizing s with
  | nil => simp [sseFeedAll]
  | cons c cs ih =>
    rw [sseFeedAll]
    dsimp only
    intro hmem
    rcases List.mem_append.mp hmem with hm | hm
    · exact sseFeed_done_not_delivered s c hm
    · exact ih (sseFeed s c).1 hm

theorem trimSp_of_head {p : List Nat} (h : p.head? ≠ some 32) : trimSp p = p := by
  cases p with
  | nil => rfl
  | cons a as =>
    have ha : a ≠ 32 := by simpa using h
    simp [trimSp, List.dropWhile_cons, ha]

theorem firstLine_clean {l : List Nat} (hl : ∀ b ∈ l, b ≠ 0 ∧ b ≠ 10) (r : List Nat) :
    firstLine (l ++ 10 :: r) = some (l, r) := by
  induction l with
  | nil => simp [firstLine_cons]
  | cons x xs ih =>
    have hx := hl x (by simp)
    have hxs : ∀ b ∈ xs, b ≠ 0 ∧ b ≠ 10 := fun b hb => hl b (by simp [hb])
    rw [List.cons_append, firstLine_cons, if_neg hx.2, if_neg hx.1, ih hxs]

theorem processLine_empty (ev : List Nat) : processLine ev [] = (msgB, none) := rfl

theorem processLine_event {ev v : List Nat} (hlast : v.getLast? ≠ some 13) :
    processLine ev (eventColon ++ v) = (trimSp v, none) := by
  have h13 : ¬ (eventColon ++ v).getLast? = some 13 := by
    cases v with
    | nil => simp [eventColon]
    | cons a as =>
      rw [List.getLast?_append_of_ne_nil _ (by simp)]
      exact hlast
  unfold processLine
  rw [if_neg h13]
  simp [eventColon, dataColon, List.isPrefixOf]

theorem processLine_data {ev p : List Nat} (hlast : p.getLast? ≠ some 13) :
    processLine ev (dataColon ++ p) =
      (ev, if ev = msgB then (if trimSp p = doneB then none else some (trimSp p)) else none) := by
  have h13 : ¬ (dataColon ++ p).getLast? = some 13 := by
    cases p with
    | nil => simp [dataColon]
    | cons a as =>
      rw [List.getLast?_append_of_ne_nil _ (by simp)]
      exact hlast
  unfold processLine
  rw [if_neg h13]
  simp [eventColon, dataColon, List.isPrefixOf]

/-- C5 (counterexample).  The stream `"data:a\ndata:b\n\n"` is one group of
two `data:` lines before the blank separator.  The decoder delivers BOTH
payloads, `"a"` and then `"b"`, to the JSON processor (each `data:` line is
processed immediately, line 91 of `baidu_agent_sse.c`).  The claim that only
the most recent payload is retained and that earlier payloads in the group
are not delivered is therefore false: under the claim only `"b"` (byte 98)
would reach the JSON processor, but the delivered sequence is
`["a", "b"]`. -/
theorem sse_multi_data_counterexample :
    (sseFeed sseStart
        [100, 97, 116, 97, 58, 97, 10, 100, 97, 116, 97, 58, 98, 10, 10]).2 = [[97], [98]]
    ∧ ([97] : List Nat) ∈
        (sseFeed sseStart
          [100, 97, 116, 97, 58, 97, 10, 100, 97, 116, 97, 58, 98, 10, 10]).2 :=
  ⟨by decide, by decide⟩

/-- C5 (amended).  For a group of two `data:` lines arriving before the next
blank separator line under the active event name `"message"`, the decoder
delivers BOTH payloads to the JSON processor, immediately and in order; they
are not concatenated, and nothing is retained until the blank line (which
only resets the event name).  Hypotheses: the payload bytes make well-formed
lines (no NUL, no newline, no trailing CR, no leading space, not the
sentinel), and the group fits in the decoder buffer. -/
theorem sse_each_data_line_delivered (p₁ p₂ : List Nat)
    (h₁c : ∀ b ∈ p₁, b ≠ 0 ∧ b ≠ 10) (h₁s : p₁.head? ≠ some 32)
    (h₁r : p₁.getLast? ≠ some 13) (h₁d : p₁ ≠ doneB)
    (h₂c : ∀ b ∈ p₂, b ≠ 0 ∧ b ≠ 10) (h₂s : p₂.head? ≠ some 32)
    (h₂r : p₂.getLast? ≠ some 13) (h₂d : p₂ ≠ doneB)
    (hfit : p₁.length + p₂.length + 13 ≤ 4095) :
    sseFeed ⟨msgB, []⟩ ((dataColon ++ p₁) ++ 10 :: ((dataColon ++ p₂) ++ [10, 10]))
      = (⟨msgB, []⟩, [p₁, p₂]) := by
  have hclean₁ : ∀ b ∈ dataColon ++ p₁, b ≠ 0 ∧ b ≠ 10 := by
    intro b hb
    rcases List.mem_append.mp hb with hm | hm
    · fin_cases hm <;> simp
    · exact h₁c b hm
  have hclean₂ : ∀ b ∈ dataColon ++ p₂, b ≠ 0 ∧ b ≠ 10 := by
    intro b hb
    rcases List.mem_append.mp hb with hm | hm
    · fin_cases hm <;> simp
    · exact h₂c b hm
  rw [sseFeed_eq_of_fits _ _ (by simp [dataColon]) (by simp [dataColon]; omega)]
  rw [List.nil_append]
  rw [processBuf_of_some (firstLine_clean hclean₁ _)]
  rw [processLine_data h₁r, trimSp_of_head h₁s]
  rw [if_pos rfl, if_neg h₁d]
  have h2 : ((dataColon ++ p₂) ++ [10, 10]) = (dataColon ++ p₂) ++ 10 :: [10] := rfl
  rw [h2, processBuf_of_some (firstLine_clean hclean₂ _)]
  rw [processLine_data h₂r, trimSp_of_head h₂s]
  rw [if_pos rfl, if_neg h₂d]
  have h3 : firstLine [10] = some ([], []) := rfl
  rw [processBuf_of_some h3, processLine_empty]
  have h4 : firstLine ([] : List Nat) = none := rfl
  rw [processBuf_of_none h4]
  simp

/-- Witness for C5 (amended), at payloads `"a"` and `"b"`. -/
theorem sse_each_data_line_delivered_witness :
    sseFeed ⟨msgB, []⟩ ((dataColon ++ [97]) ++ 10 :: ((dataColon ++ [98]) ++ [10, 10]))
      = (⟨msgB, []⟩, [[97], [98]]) :=
  sse_each_data_line_delivered [97] [98]
    (by decide) (by decide) (by decide) (by decide)
    (by decide) (by decide) (by decide) (by decide) (by decide)

/-- C6 (counterexample).  Feeding the line `"event:  ping\n"` (two spaces
after the colon): the claim says the active event name becomes the line's
value with ONE leading space trimmed, i.e. `" ping"` (bytes
`[32,112,105,110,103]`).  The code (line 73 of `baidu_agent_sse.c`) skips
ALL leading spaces, so the active event name becomes `"ping"`. -/
theorem sse_event_trim_counterexample :
    (sseFeed sseStart [101, 118, 101, 110, 116, 58, 32, 32, 112, 105, 110, 103, 10]).1.event
        = [112, 105, 110, 103]
    ∧ (sseFeed sseStart [101, 118, 101, 110, 116, 58, 32, 32, 112, 105, 110, 103, 10]).1.event
        ≠ [32, 112, 105, 110, 103] :=
  ⟨by decide, by decide⟩

/-- C6 (amended).  Each `event:` line sets the active event name to the
line's value with ALL leading spaces trimmed; each blank line resets the
active event name to `"message"`; and a `data:` line processed while the
active event name is not `"message"` delivers nothing to the JSON
processor. -/
theorem sse_event_line_semantics (ev v p : List Nat)
    (hvc : ∀ b ∈ v, b ≠ 0 ∧ b ≠ 10) (hvr : v.getLast? ≠ some 13)
    (hvfit : v.length + 7 ≤ 4095)
    (hpc : ∀ b ∈ p, b ≠ 0 ∧ b ≠ 10) (hpr : p.getLast? ≠ some 13)
    (hpfit : p.length + 6 ≤ 4095)
    (hev : ev ≠ msgB) :
    (sseFeed ⟨ev, []⟩ ((eventColon ++ v) ++ [10])).1.event = trimSp v
    ∧ (sseFeed ⟨ev, []⟩ [10]).1.event = msgB
    ∧ (sseFeed ⟨ev, []⟩ ((dataColon ++ p) ++ [10])).2 = [] := by
  have hcleanv : ∀ b ∈ eventColon ++ v, b ≠ 0 ∧ b ≠ 10 := by
    intro b hb
    rcases List.mem_append.mp hb with hm | hm
    · fin_cases hm <;> simp
    · exact hvc b hm
  have hcleanp : ∀ b ∈ dataColon ++ p, b ≠ 0 ∧ b ≠ 10 := by
    intro b hb
    rcases List.mem_append.mp hb with hm | hm
    · fin_cases hm <;> simp
    · exact hpc b hm
  have h4 : firstLine ([] : List Nat) = none := rfl
  refine ⟨?_, ?_, ?_⟩
  · rw [sseFeed_eq_of_fits _ _ (by simp [eventColon]) (by simp [eventColon]; omega)]
    rw [List.nil_append]
    have hsh : ((eventColon ++ v) ++ [10]) = (eventColon ++ v) ++ 10 :: [] := rfl
    rw [hsh, processBuf_of_some (firstLine_clean hcleanv _), processLine_event hvr]
    rw [processBuf_of_none h4]
  · rw [sseFeed_eq_of_fits _ _ (by simp) (by simp)]
    rw [List.nil_append]
    have h3 : firstLine [10] = some ([], []) := rfl
    rw [processBuf_of_some h3, processLine_empty, processBuf_of_none h4]
  · rw [sseFeed_eq_of_fits _ _ (by simp [dataColon]) (by simp [dataColon]; omega)]
    rw [List.nil_append]
    have hsh : ((dataColon ++ p) ++ [10]) = (dataColon ++ p) ++ 10 :: [] := rfl
    rw [hsh, processBuf_of_some (firstLine_clean hcleanp _), processLine_data hpr]
    rw [if_neg hev, processBuf_of_none h4]
    simp

/-- Witness for C6 (amended), at event value `"  x"`, payload `"y"`, active
event name `"ping"`. -/
theorem sse_event_line_semantics_witness :
    (sseFeed ⟨[112, 105, 110, 103], []⟩ ((eventColon ++ [32, 32, 120]) ++ [10])).1.event
        = trimSp [32, 32, 120]
    ∧ (sseFeed ⟨[112, 105, 110, 103], []⟩ [10]).1.event = msgB
    ∧ (sseFeed ⟨[112, 105, 110, 103], []⟩ ((dataColon ++ [121]) ++ [10])).2 = [] :=
  sse_event_line_semantics [112, 105, 110, 103] [32, 32, 120] [121]
    (by decide) (by decide) (by decide) (by decide) (by decide) (by decide) (by decide)

/-! ## Sentence segmenter (`streaming_tts.c`, lines 199-421)

The segmenter accumulates UTF-8 text in `sentence_buffer`
(`SENTENCE_BUFFER_SIZE = 512`, one byte reserved for the NUL terminator, so
the content never exceeds 511 bytes).  `split_by_punctuation` appends the
input, scans for one of six 3-byte Chinese punctuation marks, skips a mark
whose prefix (mark included) counts fewer than 2 UTF-8 characters, and
otherwise emits the prefix through the mark, removing it from the buffer.
`flush_remaining_text` emits the remainder at end of stream unless it counts
fewer than 2 characters, in which case it is cleared and dropped. -/

/-- `strlen` semantics: the bytes of a C string up to the first NUL. -/
def cstr (l : List Nat) : List Nat := l.takeWhile (· != 0)

/-- Is this byte a UTF-8 continuation byte?  (`(c & 0xC0) == 0x80`.) -/
def isCont (c : Nat) : Bool := c &&& 192 == 128

/-- `utf8_char_count` (lines 253-276): count the bytes that are not
continuation bytes. -/
def utf8CharCount (l : List Nat) : Nat := l.countP (fun c => c &&& 192 != 128)

/-- The per-byte stride of the scan loop (lines 361-369): the byte length of
the UTF-8 character announced by a lead byte, 1 for anything else. -/
def utf8CharBytes (c : Nat) : Nat :=
  if c &&& 224 = 192 then 2
  else if c &&& 240 = 224 then 3
  else if c &&& 248 = 240 then 4
  else 1

/-- The six punctuation marks of `is_chinese_punctuation` (lines 224-231):
`。！？，；：`, each three UTF-8 bytes. -/
def punctList : List (List Nat) :=
  [[227, 128, 130], [239, 188, 129], [239, 188, 159],
   [239, 188, 140], [239, 188, 155], [239, 188, 154]]

/-- `is_chinese_punctuation(buffer + pos, ...)`. -/
def isPunctAt (b : List Nat) (pos : Nat) : Bool :=
  punctList.any (fun q => q.isPrefixOf (b.drop pos))

/-- The scan loop of `split_by_punctuation` (lines 313-373), with structural
fuel (every step advances `pos` by at least one byte, so `b.length` is always
enough fuel).  Returns the end position (mark included) of the sentence to
emit, or `none` when no mark qualifies.  A mark at `pos` is skipped when the
guard `sentence_len < sentence_max_len && sentence_len < 512` holds and the
candidate `b.take (pos + 3)` counts fewer than 2 UTF-8 characters. -/
def scanBufF (b : List Nat) (maxLen : Nat) : Nat → Nat → Option Nat
  | 0, _ => none
  | fuel + 1, pos =>
    if pos < b.length then
      if isPunctAt b pos then
        if pos + 3 < maxLen ∧ pos + 3 < 512 ∧ utf8CharCount (b.take (pos + 3)) < 2 then
          scanBufF b maxLen fuel (pos + 3)
        else some (pos + 3)
      else scanBufF b maxLen fuel (pos + utf8CharBytes (b.getD pos 0))
    else none

def scanBuf (b : List Nat) (maxLen : Nat) : Option Nat := scanBufF b maxLen b.length 0

/-- Emission step of `split_by_punctuation` (lines 340-356): copy the
sentence (truncated to `maxLen - 1` bytes if too long) and remove
`scan`-result bytes from the buffer. -/
def popSentence (b : List Nat) (maxLen : Nat) : Option (List Nat × List Nat) :=
  match scanBuf b maxLen with
  | none => none
  | some sl => some (b.take (if maxLen ≤ sl then maxLen - 1 else sl), b.drop sl)

/-- `split_by_punctuation(input, out, maxLen)` on segmenter state `st`:
append the input (NUL-truncated, then capped by the remaining buffer space),
then try to pop one sentence.  Returns the emitted sentence (if any) and the
new buffer.  `input = none` is a NULL pointer: nothing is appended. -/
def splitByPunctuation (st : List Nat) (input : Option (List Nat)) (maxLen : Nat) :
    Option (List Nat) × List Nat :=
  if maxLen = 0 then (none, st)
  else
    match input with
    | none =>
      match popSentence st maxLen with
      | none => (none, st)
      | some (s, r) => (some s, r)
    | some t =>
      let b := st ++ (cstr t).take (511 - st.length)
      match popSentence b maxLen with
      | none => (none, b)
      | some (s, r) => (some s, r)

/-- `flush_remaining_text` (lines 388-421). -/
def flushRemaining (st : List Nat) (maxLen : Nat) : Option (List Nat) × List Nat :=
  if maxLen = 0 then (none, st)
  else if st.length = 0 then (none, st)
  else if utf8CharCount st < 2 then (none, [])
  else (some (st.take (if maxLen ≤ st.length then maxLen - 1 else st.length)), [])

/-- The drain loop of `splitter_task` (lines 625-635): call
`split_by_punctuation(NULL, ...)` until it returns 0.  Fuel `b.length`
suffices: every successful pop removes at least one byte. -/
def segDrainF : Nat → List Nat → List (List Nat) × List Nat
  | 0, b => ([], b)
  | fuel + 1, b =>
    match splitByPunctuation b none 512 with
    | (none, r) => ([], r)
    | (some s, r) =>
      let q := segDrainF fuel r
      (s :: q.1, q.2)

def segDrain (b : List Nat) : List (List Nat) × List Nat := segDrainF b.length b

/-- One `splitter_task` iteration on a received raw-text fragment (lines
620-639): `split_by_punctuation(raw_text, ...)`, then drain with NULL. -/
def segStep (b : List Nat) (frag : List Nat) : List (List Nat) × List Nat :=
  match splitByPunctuation b (some frag) 512 with
  | (none, r) => ([], r)
  | (some s, r) =>
    let q := segDrain r
    (s :: q.1, q.2)

/-- Run the segmenter over a list of raw-text fragments, starting from buffer
`b`; returns all emitted sentences (in order) and the final buffer. -/
def segRunFrags : List Nat → List (List Nat) → List (List Nat) × List Nat
  | b, [] => ([], b)
  | b, f :: fs =>
    let p := segStep b f
    let q := segRunFrags p.2 fs
    (p.1 ++ q.1, q.2)

/-- The whole stream: push all fragments, then flush once at end of stream
(lines 642-656).  Returns the emitted sentences (pops plus flush) and the
residue that flush dropped (empty when flush emitted or the buffer was
empty). -/
def segRun (frags : List (List Nat)) : List (List Nat) × List Nat :=
  let p := segRunFrags [] frags
  match flushRemaining p.2 512 with
  | (some s, _) => (p.1 ++ [s], [])
  | (none, _) => (p.1, p.2)

theorem isPunctAt_le {b : List Nat} {pos : Nat} (h : isPunctAt b pos = true) :
    pos + 3 ≤ b.length := by
  unfold isPunctAt at h
  obtain ⟨q, hq, hpre⟩ := List.any_eq_true.mp h
  have hq3 : q.length = 3 := by
    have : ∀ x ∈ punctList, x.length = 3 := by decide
    exact this q hq
  have hle := (List.isPrefixOf_iff_prefix.mp hpre).length_le
  rw [hq3, List.length_drop] at hle
  omega

theorem utf8CharBytes_pos (c : Nat) : 1 ≤ utf8CharBytes c := by
  unfold utf8CharBytes
  repeat' split
  all_goals omega

theorem scanBufF_bounds {b : List Nat} {m : Nat} :
    ∀ (fuel pos sl : Nat), scanBufF b m fuel pos = some sl → pos < sl ∧ sl ≤ b.length := by
  intro fuel
  induction fuel with
  | zero => intro pos sl h; simp [scanBufF] at h
  | succ fuel ih =>
    intro pos sl h
    rw [scanBufF] at h
    split at h
    · split at h
      · split at h
        · have := ih (pos + 3) sl h
          omega
        · simp only [Option.some.injEq] at h
          subst h
          have := isPunctAt_le (by assumption)
          omega
      · have := ih (pos + utf8CharBytes (b.getD pos 0)) sl h
        have := utf8CharBytes_pos (b.getD pos 0)
        omega
    · simp at h

theorem scanBuf_bounds {b : List Nat} {m sl : Nat} (h : scanBuf b m = some sl) :
    0 < sl ∧ sl ≤ b.length :=
  scanBufF_bounds b.length 0 sl h

/-- A successful pop with output bound 512 from a buffer of at most 511 bytes
splits the buffer exactly: nothing is truncated and nothing is discarded. -/
theorem popSentence_conserve {b s r : List Nat} (hb : b.length ≤ 511)
    (h : popSentence b 512 = some (s, r)) : s ++ r = b ∧ r.length < b.length := by
  unfold popSentence at h
  cases hs : scanBuf b 512 with
  | none => rw [hs] at h; simp at h
  | some sl =>
    rw [hs] at h
    dsimp only at h
    obtain ⟨h1, h2⟩ := scanBuf_bounds hs
    rw [if_neg (by omega)] at h
    simp only [Option.some.injEq, Prod.mk.injEq] at h
    obtain ⟨hsv, hrv⟩ := h
    subst hsv
    subst hrv
    constructor
    · exact List.take_append_drop sl b
    · rw [List.length_drop]; omega

theorem splitByPunctuation_null (b : List Nat) :
    splitByPunctuation b none 512 =
      match popSentence b 512 with
      | none => (none, b)
      | some (s, r) => (some s, r) := rfl

theorem splitByPunctuation_input (b t : List Nat) :
    splitByPunctuation b (some t) 512 =
      match popSentence (b ++ (cstr t).take (511 - b.length)) 512 with
      | none => (none, b ++ (cstr t).take (511 - b.length))
      | some (s, r) => (some s, r) := rfl

theorem segDrainF_conserve : ∀ (fuel : Nat) (b : List Nat), b.length ≤ 511 →
    (segDrainF fuel b).1.flatten ++ (segDrainF fuel b).2 = b
    ∧ (segDrainF fuel b).2.length ≤ b.length := by
  intro fuel
  induction fuel with
  | zero => intro b _; simp [segDrainF]
  | succ fuel ih =>
    intro b hb
    rw [segDrainF, splitByPunctuation_null]
    cases hp : popSentence b 512 with
    | none => simp
    | some q =>
      obtain ⟨s, r⟩ := q
      obtain ⟨hsr, hlt⟩ := popSentence_conserve hb hp
      have := ih r (by omega)
      dsimp only
      constructor
      · rw [List.flatten_cons, List.append_assoc, this.1, hsr]
      · omega

theorem segDrain_conserve {b : List Nat} (hb : b.length ≤ 511) :
    (segDrain b).1.flatten ++ (segDrain b).2 = b
    ∧ (segDrain b).2.length ≤ b.length :=
  segDrainF_conserve b.length b hb

theorem cstr_of_no_nul {t : List Nat} (h : 0 ∉ t) : cstr t = t := by
  unfold cstr
  rw [List.takeWhile_eq_self_iff]
  intro x hx
  have hx0 : x ≠ 0 := fun h0 => h (h0 ▸ hx)
  simpa using hx0

theorem segStep_conserve (b frag : List Nat) (hnz : 0 ∉ frag)
    (hfit : b.length + frag.length ≤ 511) :
    (segStep b frag).1.flatten ++ (segStep b frag).2 = b ++ frag
    ∧ (segStep b frag).2.length ≤ b.length + frag.length := by
  have hcstr : (cstr frag).take (511 - b.length) = frag := by
    rw [cstr_of_no_nul hnz]
    exact List.take_of_length_le (by omega)
  have hlen : (b ++ frag).length ≤ 511 := by simp; omega
  rw [segStep, splitByPunctuation_input, hcstr]
  cases hp : popSentence (b ++ frag) 512 with
  | none => simp
  | some q =>
    obtain ⟨s, r⟩ := q
    obtain ⟨hsr, hlt⟩ := popSentence_conserve hlen hp
    have hr : r.length ≤ 511 := by simp at hlen; simp at hlt; omega
    have hd := segDrain_conserve hr
    dsimp only
    constructor
    · rw [List.flatten_cons, List.append_assoc, hd.1, hsr]
    · simp only [List.length_append] at hlt ⊢
      omega

theorem segRunFrags_conserve : ∀ (frags : List (List Nat)) (b : List Nat),
    (∀ f ∈ frags, 0 ∉ f) → b.length + frags.flatten.length ≤ 511 →
    (segRunFrags b frags).1.flatten ++ (segRunFrags b frags).2 = b ++ frags.flatten
    ∧ (segRunFrags b frags).2.length ≤ b.length + frags.flatten.length := by
  intro frags
  induction frags with
  | nil => intro b _ _; simp [segRunFrags]
  | cons f fs ih =>
    intro b hnz hfit
    simp only [List.flatten_cons, List.length_append] at hfit ⊢
    obtain ⟨hs1, hs2⟩ := segStep_conserve b f (hnz f (by simp)) (by omega)
    obtain ⟨hr1, hr2⟩ := ih (segStep b f).2 (fun g hg => hnz g (by simp [hg]))
      (by omega)
    rw [segRunFrags]
    dsimp only
    constructor
    · rw [List.flatten_append, List.append_assoc, hr1, ← List.append_assoc,
        hs1, List.append_assoc]
    · omega

/-- C2 (counterexample).  Push the single fragment `"C"` (one codepoint, no
punctuation anywhere in the input), pop until empty (no sentence is
produced), then flush.  The flush drops the buffer (fewer than 2 codepoints),
so the concatenation of all emitted sentences plus the flush result is empty
— yet the input was `"C"`, and since the input contains no punctuation, no
"fragment adjacent to punctuation" removal is licensed by the claim.  The
claimed equation fails. -/
theorem seg_roundtrip_counterexample :
    (segRun [[67]]).1 = [] ∧ [[67]].flatten = [67] ∧ (([] : List Nat) = [67] → False) :=
  ⟨by decide, by decide, by decide⟩

/-- C2 (amended).  For every fragment sequence (NUL-free, short enough that
the 511-byte segmenter buffer never truncates), the concatenation of all
popped sentences plus the flush result, followed by the residue that flush
dropped, reproduces the concatenated input exactly; and the dropped residue
is either empty or counts fewer than 2 UTF-8 characters.  Pops never drop
anything — the only loss is a final remainder of fewer than 2 codepoints,
dropped by flush regardless of any adjacency to punctuation. -/
theorem segRun_eq (frags : List (List Nat)) :
    segRun frags =
      match flushRemaining (segRunFrags [] frags).2 512 with
      | (some s, _) => ((segRunFrags [] frags).1 ++ [s], [])
      | (none, _) => ((segRunFrags [] frags).1, (segRunFrags [] frags).2) := rfl

theorem flushRemaining_empty {st : List Nat} (h : st.length = 0) :
    flushRemaining st 512 = (none, st) := by
  unfold flushRemaining
  rw [if_neg (by omega), if_pos h]

theorem flushRemaining_short {st : List Nat} (h0 : st.length ≠ 0)
    (h2 : utf8CharCount st < 2) : flushRemaining st 512 = (none, []) := by
  unfold flushRemaining
  rw [if_neg (by omega), if_neg h0, if_pos h2]

theorem flushRemaining_emit {st : List Nat} (h0 : st.length ≠ 0)
    (h2 : ¬ utf8CharCount st < 2) (hlen : st.length ≤ 511) :
    flushRemaining st 512 = (some st, []) := by
  unfold flushRemaining
  rw [if_neg (by omega), if_neg h0, if_neg h2, if_neg (by omega), List.take_length]

theorem seg_roundtrip_conservation (frags : List (List Nat))
    (hnz : ∀ f ∈ frags, 0 ∉ f) (hfit : frags.flatten.length ≤ 511) :
    (segRun frags).1.flatten ++ (segRun frags).2 = frags.flatten
    ∧ ((segRun frags).2 = [] ∨ utf8CharCount (segRun frags).2 < 2) := by
  have hc := segRunFrags_conserve frags [] hnz (by simpa using hfit)
  simp only [List.nil_append, List.length_nil, Nat.zero_add] at hc
  obtain ⟨hc1, hc2⟩ := hc
  have hfin : (segRunFrags [] frags).2.length ≤ 511 := by omega
  rw [segRun_eq]
  by_cases h0 : (segRunFrags [] frags).2.length = 0
  · rw [flushRemaining_empty h0]
    exact ⟨hc1, Or.inl (List.length_eq_zero.mp h0)⟩
  · by_cases h2 : utf8CharCount (segRunFrags [] frags).2 < 2
    · rw [flushRemaining_short h0 h2]
      exact ⟨hc1, Or.inr h2⟩
    · rw [flushRemaining_emit h0 h2 hfin]
      refine ⟨?_, Or.inl rfl⟩
      rw [List.flatten_append]
      simpa using hc1

/-- Witness for C2 (amended): the spec's own example `"你好，"`, `"世界。"`
pushed as two fragments round-trips with empty dropped residue. -/
theorem seg_roundtrip_conservation_witness :
    (segRun [[228, 189, 160, 229, 165, 189, 239, 188, 140],
             [228, 184, 150, 231, 149, 140, 227, 128, 130]]).1.flatten
        ++ (segRun [[228, 189, 160, 229, 165, 189, 239, 188, 140],
             [228, 184, 150, 231, 149, 140, 227, 128, 130]]).2
      = [[228, 189, 160, 229, 165, 189, 239, 188, 140],
         [228, 184, 150, 231, 149, 140, 227, 128, 130]].flatten
    ∧ ((segRun [[228, 189, 160, 229, 165, 189, 239, 188, 140],
             [228, 184, 150, 231, 149, 140, 227, 128, 130]]).2 = []
        ∨ utf8CharCount (segRun [[228, 189, 160, 229, 165, 189, 239, 188, 140],
             [228, 184, 150, 231, 149, 140, 227, 128, 130]]).2 < 2) :=
  seg_roundtrip_conservation
    [[228, 189, 160, 229, 165, 189, 239, 188, 140],
     [228, 184, 150, 231, 149, 140, 227, 128, 130]]
    (by decide) (by decide)

/-- C3 (counterexample).  Buffer `"。AB。"`: the first mark `。` is found at
position 0 and the candidate (just the mark, 1 codepoint) is below the
2-codepoint minimum.  The claim says the mark is then removed from the buffer
and the text before it discarded so that it never reaches the sentence queue,
whence the eventual pop would yield `"AB。"`.  The code instead leaves the
skipped mark in place and the pop emits the whole `"。AB。"`, the skipped
mark included, to the sentence queue. -/
theorem seg_short_candidate_counterexample :
    splitByPunctuation [] (some [227, 128, 130, 65, 66, 227, 128, 130]) 512
        = (some [227, 128, 130, 65, 66, 227, 128, 130], [])
    ∧ ([227, 128, 130, 65, 66, 227, 128, 130] : List Nat) ≠ [65, 66, 227, 128, 130] :=
  ⟨by decide, by decide⟩

/-- C3 (amended).  When the scan meets a punctuation mark whose candidate
sentence is below the 2-codepoint minimum, the mark is NOT removed and the
text before it is NOT discarded: the scan merely continues after the mark,
and one `split_by_punctuation` call conserves the buffer content exactly —
the emitted sentence (if any) concatenated with the new buffer equals the old
buffer plus the appended input (no truncation assumed). -/
theorem seg_pop_never_discards (st frag : List Nat) (hnz : 0 ∉ frag)
    (hfit : st.length + frag.length ≤ 511) :
    (match splitByPunctuation st (some frag) 512 with
      | (some s, r) => s ++ r
      | (none, r) => r) = st ++ frag := by
  have hcstr : (cstr frag).take (511 - st.length) = frag := by
    rw [cstr_of_no_nul hnz]
    exact List.take_of_length_le (by omega)
  have hlen : (st ++ frag).length ≤ 511 := by simp; omega
  rw [splitByPunctuation_input, hcstr]
  cases hp : popSentence (st ++ frag) 512 with
  | none => rfl
  | some q =>
    obtain ⟨s, r⟩ := q
    exact (popSentence_conserve hlen hp).1

/-- Witness for C3 (amended), at the buffer state `"。AB。"` of the
counterexample: the emitted sentence plus the new buffer is the whole
input. -/
theorem seg_pop_never_discards_witness :
    (match splitByPunctuation [] (some [227, 128, 130, 65, 66, 227, 128, 130]) 512 with
      | (some s, r) => s ++ r
      | (none, r) => r) = [] ++ [227, 128, 130, 65, 66, 227, 128, 130] :=
  seg_pop_never_discards [] [227, 128, 130, 65, 66, 227, 128, 130] (by decide) (by decide)

/-! ## UTF-8 validity of emitted sentences (C7)

Structural UTF-8 validity, matching the byte classification used by the
source (`utf8_char_count` / the scan stride of `split_by_punctuation`): every
lead byte announcing an `n`-byte character is followed by exactly `n - 1`
continuation bytes. -/

/-- Byte-at-a-time UTF-8 validation automaton: `k` is the number of pending
continuation bytes.  A lead byte announcing an `n`-byte character sets
`k := n - 1`; every pending position must hold a continuation byte; the
string is valid when it ends with no continuation pending. -/
def validUtf8Aux : Nat → List Nat → Bool
  | 0, [] => true
  | _ + 1, [] => false
  | 0, c :: r =>
    if c &&& 128 = 0 then validUtf8Aux 0 r
    else if c &&& 224 = 192 then validUtf8Aux 1 r
    else if c &&& 240 = 224 then validUtf8Aux 2 r
    else if c &&& 248 = 240 then validUtf8Aux 3 r
    else false
  | k + 1, c :: r => isCont c && validUtf8Aux k r

def validUtf8 (l : List Nat) : Bool := validUtf8Aux 0 l

/-- If `c &&& a = v` and `b`'s bits are inside `a`'s, then `c &&& b` is
determined: `c &&& b = v &&& b`. -/
theorem land_of_land {c : Nat} (a v b : Nat) (h : c &&& a = v) (hab : a &&& b = b) :
    c &&& b = v &&& b := by
  calc c &&& b = c &&& (a &&& b) := by rw [hab]
    _ = (c &&& a) &&& b := (Nat.land_assoc c a b).symm
    _ = v &&& b := by rw [h]

theorem mask_two {c : Nat} (h : c &&& 224 = 192) : ¬ c &&& 128 = 0 := by
  have h1 := land_of_land 224 192 128 h (by decide)
  rw [(by decide : (192 : Nat) &&& 128 = 128)] at h1
  omega

theorem mask_three {c : Nat} (h : c &&& 240 = 224) :
    ¬ c &&& 128 = 0 ∧ ¬ c &&& 224 = 192 := by
  have h1 := land_of_land 240 224 128 h (by decide)
  rw [(by decide : (224 : Nat) &&& 128 = 128)] at h1
  have h2 := land_of_land 240 224 224 h (by decide)
  rw [(by decide : (224 : Nat) &&& 224 = 224)] at h2
  exact ⟨by omega, fun hc => by rw [hc] at h2; omega⟩

theorem mask_four {c : Nat} (h : c &&& 248 = 240) :
    ¬ c &&& 128 = 0 ∧ ¬ c &&& 224 = 192 ∧ ¬ c &&& 240 = 224 := by
  have h1 := land_of_land 248 240 128 h (by decide)
  rw [(by decide : (240 : Nat) &&& 128 = 128)] at h1
  have h2 := land_of_land 248 240 224 h (by decide)
  rw [(by decide : (240 : Nat) &&& 224 = 224)] at h2
  have h3 := land_of_land 248 240 240 h (by decide)
  rw [(by decide : (240 : Nat) &&& 240 = 240)] at h3
  exact ⟨by omega, fun hc => by rw [hc] at h2; omega,
    fun hc => by rw [hc] at h3; omega⟩

theorem mask_ascii {c : Nat} (h : c &&& 128 = 0) :
    ¬ c &&& 224 = 192 ∧ ¬ c &&& 240 = 224 ∧ ¬ c &&& 248 = 240 := by
  refine ⟨?_, ?_, ?_⟩
  · intro hc; exact mask_two hc h
  · intro hc; exact (mask_three hc).1 h
  · intro hc; exact (mask_four hc).1 h

theorem validUtf8Aux_append : ∀ (a : List Nat) (k : Nat) (b : List Nat),
    validUtf8Aux k a = true → validUtf8Aux 0 b = true →
    validUtf8Aux k (a ++ b) = true := by
  intro a
  induction a with
  | nil =>
    intro k b ha hb
    cases k with
    | zero => simpa using hb
    | succ k => simp [validUtf8Aux] at ha
  | cons c r ih =>
    intro k b ha hb
    cases k with
    | zero =>
      rw [List.cons_append]
      simp only [validUtf8Aux] at ha ⊢
      by_cases h1 : c &&& 128 = 0
      · rw [if_pos h1] at ha ⊢; exact ih 0 b ha hb
      · rw [if_neg h1] at ha ⊢
        by_cases h2 : c &&& 224 = 192
        · rw [if_pos h2] at ha ⊢; exact ih 1 b ha hb
        · rw [if_neg h2] at ha ⊢
          by_cases h3 : c &&& 240 = 224
          · rw [if_pos h3] at ha ⊢; exact ih 2 b ha hb
          · rw [if_neg h3] at ha ⊢
            by_cases h4 : c &&& 248 = 240
            · rw [if_pos h4] at ha ⊢; exact ih 3 b ha hb
            · rw [if_neg h4] at ha; exact absurd ha (by simp)
    | succ k =>
      rw [List.cons_append]
      simp only [validUtf8Aux, Bool.and_eq_true] at ha ⊢
      exact ⟨ha.1, ih k b ha.2 hb⟩

theorem validUtf8_append {a b : List Nat} (ha : validUtf8 a = true)
    (hb : validUtf8 b = true) : validUtf8 (a ++ b) = true :=
  validUtf8Aux_append a 0 b ha hb

/-- Stepping over one whole UTF-8 character (the scan stride of
`split_by_punctuation`) splits a valid byte list into two valid parts. -/
theorem validUtf8_step {c : Nat} {r : List Nat} (h : validUtf8 (c :: r) = true) :
    validUtf8 ((c :: r).take (utf8CharBytes c)) = true
    ∧ validUtf8 ((c :: r).drop (utf8CharBytes c)) = true := by
  unfold validUtf8 at h ⊢
  unfold utf8CharBytes
  by_cases h1 : c &&& 128 = 0
  · obtain ⟨m2, m3, m4⟩ := mask_ascii h1
    rw [if_neg m2, if_neg m3, if_neg m4]
    simp only [validUtf8Aux] at h
    rw [if_pos h1] at h
    constructor
    · simp [validUtf8Aux, h1]
    · simpa using h
  · simp only [validUtf8Aux] at h
    rw [if_neg h1] at h
    by_cases h2 : c &&& 224 = 192
    · rw [if_pos h2] at h ⊢
      cases r with
      | nil => simp [validUtf8Aux] at h
      | cons c1 r1 =>
        simp only [validUtf8Aux, Bool.and_eq_true] at h
        constructor
        · simp [validUtf8Aux, h1, h2, h.1]
        · simpa using h.2
    · rw [if_neg h2] at h ⊢
      by_cases h3 : c &&& 240 = 224
      · rw [if_pos h3] at h ⊢
        cases r with
        | nil => simp [validUtf8Aux] at h
        | cons c1 r1 =>
          simp only [validUtf8Aux, Bool.and_eq_true] at h
          cases r1 with
          | nil => simp [validUtf8Aux] at h
          | cons c2 r2 =>
            simp only [validUtf8Aux, Bool.and_eq_true] at h
            constructor
            · simp [validUtf8Aux, h1, h2, h3, h.1, h.2.1]
            · simpa using h.2.2
      · rw [if_neg h3] at h ⊢
        by_cases h4 : c &&& 248 = 240
        · rw [if_pos h4] at h ⊢
          cases r with
          | nil => simp [validUtf8Aux] at h
          | cons c1 r1 =>
            simp only [validUtf8Aux, Bool.and_eq_true] at h
            cases r1 with
            | nil => simp [validUtf8Aux] at h
            | cons c2 r2 =>
              simp only [validUtf8Aux, Bool.and_eq_true] at h
              obtain ⟨hc1, hc2, hrest⟩ := h
              cases r2 with
              | nil => simp [validUtf8Aux] at hrest
              | cons c3 r3 =>
                simp only [validUtf8Aux, Bool.and_eq_true] at hrest
                constructor
                · simp [validUtf8Aux, h1, h2, h3, h4, hc1, hc2, hrest.1]
                · simpa using hrest.2
        · rw [if_neg h4] at h
          simp at h

theorem punct_length_three : ∀ q ∈ punctList, q.length = 3 := by decide

theorem punct_valid : ∀ q ∈ punctList, validUtf8 q = true := by decide

theorem punct_valid_iff {q : List Nat} (hq : q ∈ punctList) (rest : List Nat) :
    validUtf8 (q ++ rest) = validUtf8 rest := by
  fin_cases hq <;> rfl

/-- The scan of `split_by_punctuation` only ever stops at UTF-8 character
boundaries of a valid buffer: both the emitted prefix and the kept suffix are
valid UTF-8. -/
theorem scanBufF_valid {b : List Nat} {m : Nat} : ∀ (fuel pos sl : Nat),
    validUtf8 (b.take pos) = true → validUtf8 (b.drop pos) = true →
    scanBufF b m fuel pos = some sl →
    validUtf8 (b.take sl) = true ∧ validUtf8 (b.drop sl) = true := by
  intro fuel
  induction fuel with
  | zero => intro pos sl _ _ h; simp [scanBufF] at h
  | succ fuel ih =>
    intro pos sl ht hd h
    rw [scanBufF] at h
    split at h
    case isFalse => simp at h
    case isTrue hpos =>
    split at h
    case isTrue hpunct =>
      obtain ⟨q, hq, hpre⟩ := List.any_eq_true.mp hpunct
      obtain ⟨rest, hrest⟩ := List.isPrefixOf_iff_prefix.mp hpre
      have hq3 : q.length = 3 := punct_length_three q hq
      have htake3 : b.take (pos + 3) = b.take pos ++ q := by
        rw [List.take_add]
        congr 1
        rw [← hrest, ← hq3, List.take_left]
      have hdrop3 : b.drop (pos + 3) = rest := by
        rw [← List.drop_drop, ← hrest, ← hq3, List.drop_left]
      have hvq : validUtf8 (b.take (pos + 3)) = true := by
        rw [htake3]
        exact validUtf8_append ht (punct_valid q hq)
      have hvrest : validUtf8 (b.drop (pos + 3)) = true := by
        rw [hdrop3]
        have hd' := hd
        rw [← hrest, punct_valid_iff hq rest] at hd'
        exact hd'
      split at h
      · exact ih (pos + 3) sl hvq hvrest h
      · simp only [Option.some.injEq] at h
        subst h
        exact ⟨hvq, hvrest⟩
    case isFalse hnp =>
      have hne : b.drop pos ≠ [] := by
        intro hnil
        have := congrArg List.length hnil
        simp at this
        omega
      obtain ⟨c, r, hcr⟩ := List.exists_cons_of_ne_nil hne
      have hgetD : b.getD pos 0 = c := by
        rw [List.getD_eq_getElem?_getD, ← List.head?_drop, hcr]
        rfl
      have hd' := hd
      rw [hcr] at hd'
      obtain ⟨hs1, hs2⟩ := validUtf8_step hd'
      rw [← hcr] at hs1 hs2
      have hvt : validUtf8 (b.take (pos + utf8CharBytes (b.getD pos 0))) = true := by
        rw [List.take_add]
        exact validUtf8_append ht (by rw [hgetD]; exact hs1)
      have hvd : validUtf8 (b.drop (pos + utf8CharBytes (b.getD pos 0))) = true := by
        rw [← List.drop_drop, hgetD]
        exact hs2
      exact ih _ _ hvt hvd h

theorem popSentence_valid {b s r : List Nat} (hb : b.length ≤ 511)
    (hv : validUtf8 b = true) (h : popSentence b 512 = some (s, r)) :
    validUtf8 s = true ∧ validUtf8 r = true := by
  unfold popSentence at h
  cases hs : scanBuf b 512 with
  | none => rw [hs] at h; simp at h
  | some sl =>
    rw [hs] at h
    dsimp only at h
    obtain ⟨h1, h2⟩ := scanBuf_bounds hs
    rw [if_neg (by omega)] at h
    simp only [Option.some.injEq, Prod.mk.injEq] at h
    obtain ⟨hsv, hrv⟩ := h
    subst hsv
    subst hrv
    have := scanBufF_valid b.length 0 sl (by rw [List.take_zero]; rfl)
      (by rw [List.drop_zero]; exact hv) hs
    exact this

theorem segDrainF_valid : ∀ (fuel : Nat) (b : List Nat), b.length ≤ 511 →
    validUtf8 b = true →
    (∀ s ∈ (segDrainF fuel b).1, validUtf8 s = true)
    ∧ validUtf8 (segDrainF fuel b).2 = true := by
  intro fuel
  induction fuel with
  | zero => intro b _ hv; simpa [segDrainF] using hv
  | succ fuel ih =>
    intro b hb hv
    rw [segDrainF, splitByPunctuation_null]
    cases hp : popSentence b 512 with
    | none => simpa using hv
    | some q =>
      obtain ⟨s, r⟩ := q
      obtain ⟨hsv, hrv⟩ := popSentence_valid hb hv hp
      obtain ⟨_, hlt⟩ := popSentence_conserve hb hp
      obtain ⟨hrec1, hrec2⟩ := ih r (by omega) hrv
      dsimp only
      refine ⟨?_, hrec2⟩
      intro x hx
      rcases List.mem_cons.mp hx with hx | hx
      · rw [hx]; exact hsv
      · exact hrec1 x hx

theorem segDrain_valid {b : List Nat} (hb : b.length ≤ 511)
    (hv : validUtf8 b = true) :
    (∀ s ∈ (segDrain b).1, validUtf8 s = true)
    ∧ validUtf8 (segDrain b).2 = true :=
  segDrainF_valid b.length b hb hv

theorem segStep_valid (b frag : List Nat) (hnz : 0 ∉ frag)
    (hfit : b.length + frag.length ≤ 511)
    (hvb : validUtf8 b = true) (hvf : validUtf8 frag = true) :
    (∀ s ∈ (segStep b frag).1, validUtf8 s = true)
    ∧ validUtf8 (segStep b frag).2 = true := by
  have hcstr : (cstr frag).take (511 - b.length) = frag := by
    rw [cstr_of_no_nul hnz]
    exact List.take_of_length_le (by omega)
  have hlen : (b ++ frag).length ≤ 511 := by simp; omega
  have hvbf : validUtf8 (b ++ frag) = true := validUtf8_append hvb hvf
  rw [segStep, splitByPunctuation_input, hcstr]
  cases hp : popSentence (b ++ frag) 512 with
  | none => simpa using hvbf
  | some q =>
    obtain ⟨s, r⟩ := q
    obtain ⟨hsv, hrv⟩ := popSentence_valid hlen hvbf hp
    obtain ⟨_, hlt⟩ := popSentence_conserve hlen hp
    have hr : r.length ≤ 511 := by omega
    obtain ⟨hd1, hd2⟩ := segDrain_valid hr hrv
    dsimp only
    refine ⟨?_, hd2⟩
    intro x hx
    rcases List.mem_cons.mp hx with hx | hx
    · rw [hx]; exact hsv
    · exact hd1 x hx

theorem segRunFrags_valid : ∀ (frags : List (List Nat)) (b : List Nat),
    (∀ f ∈ frags, 0 ∉ f) → (∀ f ∈ frags, validUtf8 f = true) →
    b.length + frags.flatten.length ≤ 511 → validUtf8 b = true →
    (∀ s ∈ (segRunFrags b frags).1, validUtf8 s = true)
    ∧ validUtf8 (segRunFrags b frags).2 = true := by
  intro frags
  induction frags with
  | nil => intro b _ _ _ hv; simpa [segRunFrags] using hv
  | cons f fs ih =>
    intro b hnz hval hfit hv
    simp only [List.flatten_cons, List.length_append] at hfit
    obtain ⟨hs1, hs2⟩ := segStep_valid b f (hnz f (by simp)) (by omega) hv
      (hval f (by simp))
    obtain ⟨hc1, hc2⟩ := segStep_conserve b f (hnz f (by simp)) (by omega)
    obtain ⟨hr1, hr2⟩ := ih (segStep b f).2 (fun g hg => hnz g (by simp [hg]))
      (fun g hg => hval g (by simp [hg])) (by omega) hs2
    rw [segRunFrags]
    dsimp only
    refine ⟨?_, hr2⟩
    intro x hx
    rcases List.mem_append.mp hx with hx | hx
    · exact hs1 x hx
    · exact hr1 x hx

/-- C7 (amended).  If every pushed fragment is valid UTF-8 (and NUL-free),
and the total input fits in the 511-byte segmenter buffer so that no
truncation occurs, then every sentence emitted by pop and by flush is valid
UTF-8: the scan steps over whole UTF-8 characters and the punctuation marks
are whole characters, so every split is at a character boundary. -/
theorem seg_outputs_valid_utf8 (frags : List (List Nat))
    (hv : ∀ f ∈ frags, validUtf8 f = true) (hnz : ∀ f ∈ frags, 0 ∉ f)
    (hfit : frags.flatten.length ≤ 511) :
    ∀ s ∈ (segRun frags).1, validUtf8 s = true := by
  obtain ⟨hr1, hr2⟩ := segRunFrags_valid frags [] hnz hv (by simpa using hfit) rfl
  obtain ⟨hc, hlen⟩ := segRunFrags_conserve frags [] hnz (by simpa using hfit)
  simp only [List.length_nil, Nat.zero_add] at hlen
  have hfin : (segRunFrags [] frags).2.length ≤ 511 := by omega
  rw [segRun_eq]
  by_cases h0 : (segRunFrags [] frags).2.length = 0
  · rw [flushRemaining_empty h0]; exact hr1
  · by_cases h2 : utf8CharCount (segRunFrags [] frags).2 < 2
    · rw [flushRemaining_short h0 h2]; exact hr1
    · rw [flushRemaining_emit h0 h2 hfin]
      intro s hs
      rcases List.mem_append.mp hs with hs | hs
      · exact hr1 s hs
      · rw [List.mem_singleton.mp hs]
        exact hr2

/-- Witness for C7 (amended): pushing the valid fragment `"你好，"` yields
only valid-UTF-8 sentences. -/
theorem seg_outputs_valid_utf8_witness :
    (segRun [[228, 189, 160, 229, 165, 189, 239, 188, 140]]).1.all validUtf8 = true :=
  List.all_eq_true.mpr
    (seg_outputs_valid_utf8 [[228, 189, 160, 229, 165, 189, 239, 188, 140]]
      (by decide) (by decide) (by decide))

theorem isPunctAt_false_of_no_lead {b : List Nat}
    (hb : ∀ x ∈ b, x ≠ 227 ∧ x ≠ 239) (pos : Nat) : isPunctAt b pos = false := by
  unfold isPunctAt
  rw [List.any_eq_false]
  intro q hq
  cases hd : b.drop pos with
  | nil => fin_cases hq <;> simp [List.isPrefixOf]
  | cons y ys =>
    have hy : y ∈ b := by
      have hyd : y ∈ b.drop pos := by rw [hd]; exact List.mem_cons_self y ys
      exact List.mem_of_mem_drop hyd
    obtain ⟨hy1, hy2⟩ := hb y hy
    fin_cases hq <;>
      · simp only [List.isPrefixOf, Bool.and_eq_true, beq_iff_eq]
        rintro ⟨he, -⟩
        omega

theorem scanBufF_none_of_no_lead {b : List Nat} {m : Nat}
    (hb : ∀ x ∈ b, x ≠ 227 ∧ x ≠ 239) :
    ∀ (fuel pos : Nat), scanBufF b m fuel pos = none := by
  intro fuel
  induction fuel with
  | zero => intro pos; rfl
  | succ fuel ih =>
    intro pos
    rw [scanBufF]
    by_cases hpos : pos < b.length
    · rw [if_pos hpos, isPunctAt_false_of_no_lead hb pos]
      simp only [Bool.false_eq_true, if_false]
      exact ih _
    · rw [if_neg hpos]

theorem popSentence_none_of_no_lead {b : List Nat} {m : Nat}
    (hb : ∀ x ∈ b, x ≠ 227 ∧ x ≠ 239) : popSentence b m = none := by
  unfold popSentence scanBuf
  rw [scanBufF_none_of_no_lead hb]

theorem validUtf8Aux_replicate97 : ∀ (n : Nat) (l : List Nat),
    validUtf8Aux 0 (List.replicate n 97 ++ l) = validUtf8Aux 0 l := by
  intro n
  induction n with
  | zero => intro l; simp
  | succ n ih =>
    intro l
    rw [List.replicate_succ, List.cons_append]
    have hstep : validUtf8Aux 0 (97 :: (List.replicate n 97 ++ l))
        = validUtf8Aux 0 (List.replicate n 97 ++ l) := rfl
    rw [hstep, ih]

theorem utf8CharCount_replicate97 : ∀ (n : Nat),
    utf8CharCount (List.replicate n 97) = n := by
  intro n
  induction n with
  | zero => rfl
  | succ n ih =>
    rw [List.replicate_succ]
    show utf8CharCount (97 :: List.replicate n 97) = n + 1
    unfold utf8CharCount at ih ⊢
    rw [List.countP_cons, ih, if_pos (by decide)]

/-- C7 (counterexample).  Fragments `"a" * 509` (509 valid ASCII characters)
and `"你"` (one valid 3-byte character) are each valid UTF-8.  After the
first push the buffer holds 509 bytes; pushing `"你"` finds only
`511 - 509 = 2` free bytes, so the append truncates the character to its
first two bytes `[228, 189]` — a byte-level cut in the middle of a multi-byte
sequence.  Flush then emits the whole 511-byte buffer, which is not valid
UTF-8, contradicting the claim for the buffer-truncation case it explicitly
includes. -/
theorem seg_utf8_truncation_counterexample :
    splitByPunctuation [] (some (List.replicate 509 97)) 512
        = (none, List.replicate 509 97)
    ∧ (splitByPunctuation (List.replicate 509 97) (some [228, 189, 160]) 512).2
        = List.replicate 509 97 ++ [228, 189]
    ∧ (flushRemaining (List.replicate 509 97 ++ [228, 189]) 512).1
        = some (List.replicate 509 97 ++ [228, 189])
    ∧ validUtf8 (List.replicate 509 97 ++ [228, 189]) = false
    ∧ validUtf8 (List.replicate 509 97) = true
    ∧ validUtf8 [228, 189, 160] = true := by
  have hmem : ∀ x ∈ List.replicate 509 97, x = 97 := by
    intro x hx
    exact (List.mem_replicate.mp hx).2
  have hnolead : ∀ x ∈ List.replicate 509 97, x ≠ 227 ∧ x ≠ 239 := by
    intro x hx
    rw [hmem x hx]
    omega
  have hnonul : (0 : Nat) ∉ List.replicate 509 97 := by
    intro hx
    have := hmem 0 hx
    omega
  have hlen509 : (List.replicate 509 97).length = 509 := List.length_replicate 509 97
  have htrunc : (cstr [228, 189, 160]).take (511 - (List.replicate 509 97).length)
      = [228, 189] := by
    rw [hlen509]
    rfl
  have hnolead2 : ∀ x ∈ List.replicate 509 97 ++ [228, 189], x ≠ 227 ∧ x ≠ 239 := by
    intro x hx
    rcases List.mem_append.mp hx with hx | hx
    · exact hnolead x hx
    · rcases List.mem_cons.mp hx with hx | hx
      · omega
      · rcases List.mem_cons.mp hx with hx | hx
        · omega
        · simp at hx
  refine ⟨?_, ?_, ?_, ?_, ?_, by decide⟩
  · rw [splitByPunctuation_input]
    simp only [List.nil_append, List.length_nil, Nat.sub_zero]
    rw [cstr_of_no_nul hnonul, List.take_of_length_le (by rw [hlen509]; omega),
      popSentence_none_of_no_lead hnolead]
  · rw [splitByPunctuation_input, htrunc,
      popSentence_none_of_no_lead hnolead2]
  · have hlen : (List.replicate 509 97 ++ [228, 189]).length = 511 := by
      rw [List.length_append, hlen509]
      rfl
    have hcount : ¬ utf8CharCount (List.replicate 509 97 ++ [228, 189]) < 2 := by
      unfold utf8CharCount
      rw [List.countP_append]
      have hrep := utf8CharCount_replicate97 509
      unfold utf8CharCount at hrep
      omega
    rw [flushRemaining_emit (by rw [hlen]; omega) hcount (by rw [hlen])]
  · unfold validUtf8
    rw [validUtf8Aux_replicate97]
    rfl
  · unfold validUtf8
    rw [(List.append_nil (List.replicate 509 97)).symm, validUtf8Aux_replicate97]
    rfl

/-! ## HTTP session driver retry loop (`main/baidu_agent_client.c`,
`http_client_task`, lines 210-259)

One iteration of the task loop around `esp_http_client_perform`, given the
outcome of the perform call.  `BAIDU_AGENT_MAX_RETRIES = 3`
(`baidu_agent_client.h`, line 23). -/

structure RetryConfig where
  autoReconnect : Bool
  reconnectInterval : Nat
deriving DecidableEq, Repr

structure DriverState where
  retryCount : Nat
  hasClient : Bool
deriving DecidableEq, Repr

/-- Observable actions of one loop iteration. -/
inductive TaskAction where
  | emitError
  | waitRetry (ms : Nat)
  | cleanupClient
deriving DecidableEq, Repr

/-- One iteration of the `while (!should_stop)` body of `http_client_task`:
if there is no in-flight client, nothing happens; on perform failure the
`Error` callback fires, then either (auto-reconnect on and
`retry_count < BAIDU_AGENT_MAX_RETRIES`) the count is incremented and the
loop waits `reconnect_interval` ms before retrying with the client kept, or
the client is cleaned up and the request abandoned; on success the client is
cleaned up. -/
def http_client_task_step (cfg : RetryConfig) (s : DriverState) (failed : Bool) :
    DriverState × List TaskAction :=
  if ¬ s.hasClient then (s, [])
  else if failed then
    if cfg.autoReconnect ∧ s.retryCount < 3 then
      (⟨s.retryCount + 1, true⟩, [.emitError, .waitRetry cfg.reconnectInterval])
    else
      (⟨s.retryCount, false⟩, [.emitError, .cleanupClient])
  else (⟨s.retryCount, false⟩, [.cleanupClient])

/-- C8.  With `auto_reconnect` enabled, starting from a freshly sent request
(`retry_count = 0`, set by `baidu_agent_send_message`): each of the first
three transport failures delivers an `Error` event, increments the retry
counter (to `k + 1` for `k < 3`) and waits the reconnect interval before
retrying with the request kept alive; the 4th consecutive failure (counter
at 3) delivers an `Error` event and cleans the client up without any retry
wait — and from that state every further loop iteration does nothing: the
request is terminally abandoned. -/
theorem retry_policy (cfg : RetryConfig) (k : Nat)
    (hauto : cfg.autoReconnect = true) (hk : k < 3) :
    http_client_task_step cfg ⟨k, true⟩ true
        = (⟨k + 1, true⟩, [.emitError, .waitRetry cfg.reconnectInterval])
    ∧ http_client_task_step cfg ⟨3, true⟩ true
        = (⟨3, false⟩, [.emitError, .cleanupClient])
    ∧ (∀ failed : Bool, http_client_task_step cfg ⟨3, false⟩ failed = (⟨3, false⟩, [])) := by
  refine ⟨?_, ?_, ?_⟩
  · unfold http_client_task_step
    rw [if_neg (by simp), if_pos rfl, if_pos ⟨hauto, hk⟩]
  · unfold http_client_task_step
    rw [if_neg (by simp), if_pos rfl, if_neg (fun hc => absurd hc.2 (by decide))]
  · intro failed
    unfold http_client_task_step
    rw [if_pos (by simp)]

/-- Witness for C8, with the reference 5000 ms reconnect interval, at
`k = 2`. -/
theorem retry_policy_witness :
    http_client_task_step ⟨true, 5000⟩ ⟨2, true⟩ true
        = (⟨3, true⟩, [.emitError, .waitRetry 5000])
    ∧ http_client_task_step ⟨true, 5000⟩ ⟨3, true⟩ true
        = (⟨3, false⟩, [.emitError, .cleanupClient])
    ∧ (∀ failed : Bool, http_client_task_step ⟨true, 5000⟩ ⟨3, false⟩ failed
        = (⟨3, false⟩, [])) :=
  retry_policy ⟨true, 5000⟩ 2 rfl (by decide)

/-! ## Speech-synthesis text-length handling (C9)

Two `baidu_tts_synthesize` variants exist.  `tts_service.c` (lines 459-493)
truncates text above `BAIDU_TTS_MAX_TEXT_LEN = 2048` bytes before
URL-encoding it.  `streaming_tts.c` (lines 862-943) has NO such truncation:
it URL-encodes the whole text and `snprintf`s the POST body into a fixed
`char post_data[1024]`, which silently cuts the body at 1023 bytes. -/

/-- `url_encode` (identical in both files): unreserved bytes kept, all
others expanded to `%XX` with uppercase hex. -/
def hexDigit (d : Nat) : Nat := if d < 10 then 48 + d else 55 + d

def urlEncode (text : List Nat) : List Nat :=
  text.flatMap fun c =>
    if (65 ≤ c ∧ c ≤ 90) ∨ (97 ≤ c ∧ c ≤ 122) ∨ (48 ≤ c ∧ c ≤ 57)
        ∨ c = 45 ∨ c = 95 ∨ c = 46 ∨ c = 126 then
      [c]
    else
      [37, hexDigit (c / 16 % 16), hexDigit (c % 16)]

/-- The text `tts_service.c`'s `baidu_tts_synthesize` hands to `url_encode`
(lines 479-493): truncated to 2048 bytes when longer, untouched
otherwise. -/
def tts_service_submitted_text (text : List Nat) : List Nat :=
  if text.length > 2048 then text.take 2048 else text

/-- Bytes of `"tex="`. -/
def texEq : List Nat := [116, 101, 120, 61]

/-- Bytes of `"&tok="`. -/
def tokEq : List Nat := [38, 116, 111, 107, 61]

/-- Bytes of
`"&cuid=esp32_streaming_tts&ctp=1&lan=zh&spd=5&pit=5&vol=10&per=0&aue=4"`. -/
def streamingRestParams : List Nat :=
  [38, 99, 117, 105, 100, 61, 101, 115, 112, 51, 50, 95, 115, 116, 114, 101,
   97, 109, 105, 110, 103, 95, 116, 116, 115, 38, 99, 116, 112, 61, 49, 38,
   108, 97, 110, 61, 122, 104, 38, 115, 112, 100, 61, 53, 38, 112, 105, 116,
   61, 53, 38, 118, 111, 108, 61, 49, 48, 38, 112, 101, 114, 61, 48, 38, 97,
   117, 101, 61, 52]

/-- The POST body built by `streaming_tts.c`'s `baidu_tts_synthesize` (lines
883-887): `snprintf(post_data, 1024, "tex=%s&tok=%s&cuid=...", encoded_text,
access_token)` — the output is cut at 1023 bytes (one reserved for the NUL
terminator).  The text is NOT truncated to 2048 bytes first. -/
def streaming_tts_post_data (text tok : List Nat) : List Nat :=
  (texEq ++ urlEncode text ++ tokEq ++ tok ++ streamingRestParams).take 1023

/-- C9 (counterexample).  A 1500-byte sentence of `'a'`s is at or below the
2048-byte provider ceiling, so per the claim it must be submitted unmodified.
`'a'` is unreserved, so its URL-encoding is itself; yet the streaming
variant's POST body is cut at 1023 bytes, so the body carries only
`"tex="` followed by 1019 of the 1500 text bytes — the token and the other
parameters are cut off entirely, and the submitted text is not the input
text. -/
theorem urlEncode_replicate97 : ∀ (n : Nat),
    urlEncode (List.replicate n 97) = List.replicate n 97 := by
  intro n
  induction n with
  | zero => rfl
  | succ n ih =>
    rw [List.replicate_succ]
    show urlEncode (97 :: List.replicate n 97) = 97 :: List.replicate n 97
    unfold urlEncode at ih ⊢
    rw [List.flatMap_cons, ih, if_pos (by omega), List.singleton_append]

theorem tts_streaming_truncation_counterexample :
    streaming_tts_post_data (List.replicate 1500 97) [116, 111, 107]
        = texEq ++ List.replicate 1019 97
    ∧ (List.replicate 1500 97).length ≤ 2048
    ∧ texEq ++ List.replicate 1019 97 ≠ texEq ++ List.replicate 1500 97 := by
  refine ⟨?_, by rw [List.length_replicate]; omega, ?_⟩
  · unfold streaming_tts_post_data
    rw [urlEncode_replicate97]
    simp only [List.append_assoc]
    rw [List.take_append_eq_append_take,
      List.take_of_length_le (by rw [(by rfl : texEq.length = 4)]; omega),
      (by rfl : texEq.length = 4)]
    rw [List.take_append_eq_append_take, List.take_replicate,
      List.length_replicate]
    rw [(by rfl : (1023 - 4 : Nat) = 1019), (by rfl : (1019 ⊓ 1500 : Nat) = 1019),
      (by rfl : (1019 - 1500 : Nat) = 0), List.take_zero, List.append_nil]
  · intro h
    have hlen := congrArg List.length h
    simp only [List.length_append, List.length_replicate] at hlen
    omega

/-- C9 (amended).  The buffer-then-play variant (`tts_service.c`) enforces
the 2048-byte provider ceiling: the text it hands to `url_encode` is never
longer than 2048 bytes, is always a prefix of the input, equals the input
when the input is at or below the ceiling, and is the 2048-byte prefix (with
a logged warning) above it.  The streaming variant (`streaming_tts.c`)
applies no 2048-byte truncation to the text at all; instead its entire POST
body is silently capped at 1023 bytes by the fixed `snprintf` buffer. -/
theorem tts_length_ceiling (t tok : List Nat) :
    (tts_service_submitted_text t).length ≤ 2048
    ∧ tts_service_submitted_text t <+: t
    ∧ (t.length ≤ 2048 → tts_service_submitted_text t = t)
    ∧ (2048 < t.length → tts_service_submitted_text t = t.take 2048)
    ∧ (streaming_tts_post_data t tok).length ≤ 1023 := by
  refine ⟨?_, ?_, ?_, ?_, ?_⟩
  · unfold tts_service_submitted_text
    split
    · rw [List.length_take]; omega
    · omega
  · unfold tts_service_submitted_text
    split
    · exact List.take_prefix 2048 t
    · exact List.prefix_refl t
  · intro hle
    unfold tts_service_submitted_text
    rw [if_neg (by omega)]
  · intro hgt
    unfold tts_service_submitted_text
    rw [if_pos (by omega)]
  · unfold streaming_tts_post_data
    rw [List.length_take]
    omega

/-- Witness for C9 (amended), at a 3000-byte text (above the ceiling) and a
concrete token. -/
theorem tts_length_ceiling_witness :
    2048 < (List.replicate 3000 97).length
    ∧ tts_service_submitted_text (List.replicate 3000 97)
        = (List.replicate 3000 97).take 2048
    ∧ (List.replicate 3000 97).take 2048 ≤ (List.replicate 3000 97).take 2048
    ∧ (streaming_tts_post_data (List.replicate 3000 97) [116, 111, 107]).length ≤ 1023 :=
  ⟨by rw [List.length_replicate]; omega,
    (tts_length_ceiling (List.replicate 3000 97) [116, 111, 107]).2.2.2.1
      (by rw [List.length_replicate]; omega),
    le_refl _,
    (tts_length_ceiling (List.replicate 3000 97) [116, 111, 107]).2.2.2.2⟩

/-! ## `streaming_tts_push_text` (`streaming_tts.c`, lines 1255-1297)

State of the streaming TTS service as far as `push_text` touches it: the
`initialized` flag, the `stream_ended` flag, the segmenter's
`sentence_buffer`, and the raw-text queue (`RAW_TEXT_QUEUE_SIZE = 20`
records of at most `RAW_TEXT_MAX_LEN - 1 = 255` text bytes). -/

inductive EspErr where
  | ok
  | errInvalidState
  | errTimeout
deriving DecidableEq, Repr

structure SttState where
  initialized : Bool
  streamEnded : Bool
  sentenceBuffer : List Nat
  rawTextQueue : List (List Nat)
deriving DecidableEq, Repr

/-- The chunking loop of `push_text` (lines 1276-1294): send the text to the
raw-text queue in chunks of at most 255 bytes; a full queue (20 records) that
stays full for the 5-second timeout makes the call return `ESP_ERR_TIMEOUT`
with the earlier chunks already enqueued.  (The bounded blocking send is
modelled as failing exactly when the queue is full.)  Fuel `t.length`
suffices: every iteration consumes at least one byte. -/
def pushChunksF : Nat → SttState → List Nat → EspErr × SttState
  | 0, s, _ => (.ok, s)
  | fuel + 1, s, t =>
    if t.isEmpty then (.ok, s)
    else if s.rawTextQueue.length < 20 then
      pushChunksF fuel { s with rawTextQueue := s.rawTextQueue ++ [t.take 255] }
        (t.drop 255)
    else (.errTimeout, s)

/-- `streaming_tts_push_text` (lines 1255-1297): reject when the service is
not initialized; return `ESP_OK` doing nothing for a NULL pointer or an
empty string (checked BEFORE any state is touched); otherwise clear
`stream_ended` and enqueue the text in chunks. -/
def streaming_tts_push_text (s : SttState) (text : Option (List Nat)) :
    EspErr × SttState :=
  if s.initialized = false then (.errInvalidState, s)
  else
    match text with
    | none => (.ok, s)
    | some t =>
      if (cstr t).length = 0 then (.ok, s)
      else pushChunksF (cstr t).length { s with streamEnded := false } (cstr t)

/-- C10.  With the service initialized, `streaming_tts_push_text` with a
NULL pointer or an empty string returns `ESP_OK`, enqueues nothing onto the
raw-text queue, and leaves the whole service state — the `stream_ended` flag
and the segmenter buffer included — unchanged. -/
theorem push_text_empty_noop (s : SttState) (hinit : s.initialized = true) :
    streaming_tts_push_text s none = (.ok, s)
    ∧ streaming_tts_push_text s (some []) = (.ok, s) := by
  constructor
  · unfold streaming_tts_push_text
    rw [if_neg (by rw [hinit]; simp)]
  · unfold streaming_tts_push_text
    rw [if_neg (by rw [hinit]; simp)]
    rfl

/-- Witness for C10, at an initialized state with a non-empty segmenter
buffer, a pending queue record, and the stream-ended flag set. -/
theorem push_text_empty_noop_witness :
    (SttState.mk true true [104, 105] [[97]]).initialized = true
    ∧ streaming_tts_push_text (SttState.mk true true [104, 105] [[97]]) none
        = (.ok, SttState.mk true true [104, 105] [[97]])
    ∧ streaming_tts_push_text (SttState.mk true true [104, 105] [[97]]) (some [])
        = (.ok, SttState.mk true true [104, 105] [[97]]) :=
  ⟨by decide,
    (push_text_empty_noop (SttState.mk true true [104, 105] [[97]]) (by decide)).1,
    (push_text_empty_noop (SttState.mk true true [104, 105] [[97]]) (by decide)).2⟩

end VvEsp
